import Mathlib

/-!
Verification development for the Qualtran resource-counting core
(call-graph construction, sigma/cost aggregation, generalizers) and the
classical-simulation data-type helpers.  The Python sources of the
subsystems under scrutiny are not part of the source tree that ships with
this snapshot (only their documentation, notebooks and reference pages
are), so every definition below is modelled from the specification text
and the repository's reference documentation, as indicated in each doc
comment.
-/

namespace Qualtran

/-- Modelled from the spec (section 4.2, missing file
`qualtran/resource_counting/_call_graph.py`): the outcome of asking the
decomposition driver for a bloq's direct callees.  `cs` carries the
flattened `(callee, multiplicity)` list (a direct cost override or a
flattened decomposition), `notImpl` is the recoverable
`DecomposeNotImplemented` signal, and `fail` is any other exception
raised during decomposition. -/
inductive DecompRes (B E : Type) where
  | cs (callees : List (B × Nat))
  | notImpl
  | fail (e : E)
deriving DecidableEq

/-- Modelled from the spec (section 4.3): the depth cutoff test.  A node
popped at `depth` is kept as a leaf when `max_depth` is set and the depth
has reached it. -/
def depth_cutoff (maxd : Option Nat) (depth : Nat) : Bool :=
  match maxd with
  | none => false
  | some m => decide (m ≤ depth)

/-- Modelled from the spec (sections 3, 4.3, missing
`get_bloq_call_graph`): the aggregated leaf-count sigma, evaluated
pointwise at a leaf key.  `U` is the decomposition driver's callee
function (`none` = `DecomposeNotImplemented`, i.e. no decomposition and
no direct cost override), `g` the generalizer.  A dropped node
(`g b = none`) has its identity merged into the generic placeholder key
`none`; a zero-callee bloq is a leaf by definition (spec 4.2).  `fuel`
bounds the recursion; any fuel at least the height of the expansion
suffices. -/
def get_bloq_call_graph_sigma {B : Type} [DecidableEq B]
    (U : B → Option (List (B × Nat))) (g : B → Option B) :
    Nat → Nat → Option Nat → B → Option B → Nat
  | 0, _, _, _, _ => 0
  | fuel + 1, depth, maxd, b, l =>
    match g b with
    | none => if l = none then 1 else 0
    | some b2 =>
      if depth_cutoff maxd depth then (if l = some b2 then 1 else 0)
      else
        match U b2 with
        | none => if l = some b2 then 1 else 0
        | some cs =>
          if cs.isEmpty then (if l = some b2 then 1 else 0)
          else
            (cs.map fun cn =>
              cn.2 * get_bloq_call_graph_sigma U g fuel (depth + 1) maxd cn.1 l).sum

/-- Modelled from the spec (section 4.4, missing `get_cost_value`): the
typed cost-value fold over the call graph.  Costs live in an additive
commutative monoid with integer scaling; a leaf contributes its own
intrinsic cost.  A dropped node keeps contributing the cost of the
original bloq (spec section 3: dropping merges identity only, the cost
is still counted). -/
def get_cost_value {B M : Type} [DecidableEq B] [AddCommMonoid M]
    (U : B → Option (List (B × Nat))) (g : B → Option B) (cost : B → M) :
    Nat → Nat → Option Nat → B → M
  | 0, _, _, _ => 0
  | fuel + 1, depth, maxd, b =>
    match g b with
    | none => cost b
    | some b2 =>
      if depth_cutoff maxd depth then cost b2
      else
        match U b2 with
        | none => cost b2
        | some cs =>
          if cs.isEmpty then cost b2
          else
            (cs.map fun cn =>
              cn.2 • get_cost_value U g cost fuel (depth + 1) maxd cn.1).sum

/-- Modelled from the spec (section 3, sigma invariant): the explicit
enumeration of all root-to-leaf paths of the expansion, each recorded as
(product of edge multiplicities along the path, terminal leaf key).  The
sigma invariant states that sigma is the sum over these paths. -/
def leaf_path_weights {B : Type} [DecidableEq B]
    (U : B → Option (List (B × Nat))) (g : B → Option B) :
    Nat → Nat → Option Nat → B → List (Nat × Option B)
  | 0, _, _, _ => []
  | fuel + 1, depth, maxd, b =>
    match g b with
    | none => [(1, none)]
    | some b2 =>
      if depth_cutoff maxd depth then [(1, some b2)]
      else
        match U b2 with
        | none => [(1, some b2)]
        | some cs =>
          if cs.isEmpty then [(1, some b2)]
          else
            cs.flatMap fun cn =>
              (leaf_path_weights U g fuel (depth + 1) maxd cn.1).map
                fun wl => (cn.2 * wl.1, wl.2)

/-- Modelled from the spec (section 8, depth-cutoff monotonicity): the
decomposition tree of `b` (under generalizer `g` and driver `U`) has
depth at most `d`.  Dropped nodes, undecomposable bloqs and zero-callee
bloqs are leaves of depth `0`. -/
def decomposition_depth_le {B : Type} [DecidableEq B]
    (U : B → Option (List (B × Nat))) (g : B → Option B) :
    Nat → B → Bool
  | 0, b =>
    match g b with
    | none => true
    | some b2 =>
      match U b2 with
      | none => true
      | some cs => cs.isEmpty
  | d + 1, b =>
    match g b with
    | none => true
    | some b2 =>
      match U b2 with
      | none => true
      | some cs => cs.all fun cn => decomposition_depth_le U g d cn.1

/-- Modelled from the spec (section 4.3): the mutable state of one
call-graph build: the pending work-list of `(bloq, depth)` pairs, the
memo set of already-expanded generalized keys (`none` is the placeholder
for dropped bloqs), the accumulated weighted edges, the leaf nodes, and
the log of bloqs whose decomposition was invoked (most recent first). -/
structure CGState (B : Type) where
  queue : List (B × Nat)
  memo : List (Option B)
  edges : List (Option B × Option B × Nat)
  leaves : List (Option B)
  dlog : List B
deriving DecidableEq

/-- Modelled from the spec (section 4.3): the initial build state for a
list of root bloqs, all at depth `0`. -/
def initState {B : Type} (roots : List B) : CGState B :=
  { queue := roots.map fun b => (b, 0), memo := [], edges := [],
    leaves := [], dlog := [] }

/-- Modelled from the spec (section 4.3): one iteration of the
call-graph builder loop.  Pop a `(bloq, depth)` pair; apply the
generalizer; skip nodes whose generalized key was already expanded;
dropped nodes become the placeholder leaf; nodes at the depth cutoff, or
whose decomposition is not implemented, or with zero callees, become
leaves; otherwise record one weighted edge per callee and enqueue the
callees one level deeper.  A decomposition failure other than
`DecomposeNotImplemented` aborts the whole build with that error.
Returns `ok none` when the work-list is exhausted. -/
def build_call_graph_step {B E : Type} [DecidableEq B]
    (U : B → DecompRes B E) (g : B → Option B) (maxd : Option Nat)
    (st : CGState B) : Except E (Option (CGState B)) :=
  match st.queue with
  | [] => .ok none
  | (b, depth) :: rest =>
    if g b ∈ st.memo then .ok (some { st with queue := rest })
    else
      match g b with
      | none =>
        .ok (some { st with queue := rest, memo := g b :: st.memo,
                            leaves := g b :: st.leaves })
      | some b2 =>
        if depth_cutoff maxd depth then
          .ok (some { st with queue := rest, memo := some b2 :: st.memo,
                              leaves := some b2 :: st.leaves })
        else
          match U b2 with
          | .notImpl =>
            .ok (some { st with queue := rest, memo := some b2 :: st.memo,
                                leaves := some b2 :: st.leaves,
                                dlog := b2 :: st.dlog })
          | .fail e => .error e
          | .cs cs =>
            if cs.isEmpty then
              .ok (some { st with queue := rest, memo := some b2 :: st.memo,
                                  leaves := some b2 :: st.leaves,
                                  dlog := b2 :: st.dlog })
            else
              .ok (some { st with
                queue := rest ++ cs.map fun cn => (cn.1, depth + 1),
                memo := some b2 :: st.memo,
                edges := st.edges ++ cs.map fun cn => (some b2, g cn.1, cn.2),
                dlog := b2 :: st.dlog })

/-- Modelled from the spec (section 4.3, missing `get_bloq_call_graph`):
run the builder loop for at most `fuel` iterations, propagating any
decomposition error unchanged and returning the final state when the
work-list empties. -/
def build_call_graph {B E : Type} [DecidableEq B]
    (U : B → DecompRes B E) (g : B → Option B) (maxd : Option Nat) :
    Nat → CGState B → Except E (CGState B)
  | 0, st => .ok st
  | fuel + 1, st =>
    match build_call_graph_step U g maxd st with
    | .error e => .error e
    | .ok none => .ok st
    | .ok (some st2) => build_call_graph U g maxd fuel st2

/-- Modelled from the spec (section 4.3): `n` successful, non-final
iterations of the builder loop, used to speak about the states the build
passes through. -/
def build_call_graph_iter {B E : Type} [DecidableEq B]
    (U : B → DecompRes B E) (g : B → Option B) (maxd : Option Nat) :
    Nat → CGState B → Option (CGState B)
  | 0, st => some st
  | n + 1, st =>
    match build_call_graph_step U g maxd st with
    | .ok (some st2) => build_call_graph_iter U g maxd n st2
    | _ => none

/-- Modelled from the spec (section 4.1): the identity generalizer, the
default when the caller supplies none. -/
def gid {B : Type} : B → Option B := fun b => some b

/-- Modelled from the spec (section 8, concrete scenarios 1-4): the four
bloqs of the concrete scenario family.  `A` and `C` are primitive
leaves, `B` and `D` are composites. -/
inductive ABloq where
  | A
  | B
  | C
  | D
deriving DecidableEq

/-- Modelled from the spec (section 8): the decomposition driver's
callee function for the scenario family.  `A` and `C` have no
decomposition and no cost override; `B` decomposes into 3 calls to `A`
plus 2 calls to `C`; `D` decomposes into `B` once plus `A` twice. -/
def scenarioCallees : ABloq → Option (List (ABloq × Nat))
  | .A => none
  | .C => none
  | .B => some [(.A, 3), (.C, 2)]
  | .D => some [(.B, 1), (.A, 2)]

/-- Modelled from the spec (section 8): the same scenario driver in the
operational form used by the builder loop (with an error type for
uniformity; no scenario bloq fails). -/
def scenarioDriver : ABloq → DecompRes ABloq Nat
  | .A => .notImpl
  | .C => .notImpl
  | .B => .cs [(.A, 3), (.C, 2)]
  | .D => .cs [(.B, 1), (.A, 2)]

/-- Modelled from the spec (section 8): the declared T-costs of the
scenario bloqs: `A` costs one T gate, `C` costs four.  Only leaves are
ever queried for their intrinsic cost. -/
def scenarioTCost : ABloq → Nat
  | .A => 1
  | .C => 4
  | .B => 0
  | .D => 0

/-- Modelled from the spec (section 8, concrete scenario 4): a
generalizer that maps every instance of `A` to the drop marker and
leaves every other bloq untouched. -/
def dropA : ABloq → Option ABloq
  | .A => none
  | b => some b

/-- Modelled from the spec (section 4.1): the angle parameter of a
rotation bloq, either a concrete rational angle or the shared canonical
symbol handed out by the symbol allocator. -/
inductive Angle where
  | lit (q : ℚ)
  | sym
deriving DecidableEq

/-- Modelled from the spec (section 4.1) and the reference docs for the
generalizers module: a miniature bloq universe containing the wire
management bloqs (`split`, `join`), a rotation-by-angle bloq `rz`, the
primitive `tgate`, and a family of other bloqs. -/
inductive GBloq where
  | split (n : Nat)
  | join (n : Nat)
  | rz (a : Angle)
  | tgate
  | other (k : Nat)
deriving DecidableEq

/-- Modelled from the spec (missing
`qualtran/resource_counting/generalizers.py`, reference doc
`ignore_split_join.md`): a generalizer that ignores split and join
operations, mapping them to the drop marker and leaving every other
bloq unchanged. -/
def ignore_split_join : GBloq → Option GBloq
  | .split _ => none
  | .join _ => none
  | b => some b

/-- Modelled from the spec (missing
`qualtran/resource_counting/generalizers.py`, reference doc
`generalize_rotation_angle.md`): a generalizer that replaces rotation
angles with a shared symbol, so that rotations differing only in their
continuous angle memoize to one node. -/
def generalize_rotation_angle : GBloq → Option GBloq
  | .rz _ => some (.rz .sym)
  | b => some b

/-- Modelled from the spec (section 8, idempotence property): applying a
generalizer twice, in the sense available for `Bloq -> Bloq | None`
functions: a dropped bloq stays dropped, a kept bloq is generalized
again. -/
def generalize_twice {B : Type} (g : B → Option B) (b : B) : Option B :=
  (g b).bind g

/-- A generalizer-typed function that is not idempotent: it bumps the
index of `other` bloqs on every application.  It is a pure function of
the exact type the call-graph builder accepts for its generalizer
argument. -/
def bumpOther : GBloq → Option GBloq
  | .other k => some (.other (k + 1))
  | b => some b

/-- Modelled from the spec (missing `qualtran/_infra/data_types.py`,
documented in `QDType.md` and the data-types notebook): `QUInt(n)`'s
`to_bits` returns the `n` bits of the binary representation of `x` in
big-endian order, the most significant bit at index 0. -/
def to_bits (n x : Nat) : List Nat :=
  (List.range n).map fun i => x / 2 ^ (n - 1 - i) % 2

/-- The little-endian companion of `to_bits`: bit `i` of `x` at index
`i`.  Used to relate the big-endian convention to the arithmetic of
ripple-carry addition. -/
def to_bits_le (n x : Nat) : List Nat :=
  (List.range n).map fun i => x / 2 ^ i % 2

/-- Modelled from the spec (missing `qualtran/_infra/data_types.py`,
documented in `QDType.md`): `from_bits` combines individual bits back
into a value, folding big-endian (most significant bit first). -/
def from_bits (bs : List Nat) : Nat :=
  bs.foldl (fun acc b => 2 * acc + b) 0

/-- The value of a little-endian bit list (least significant bit
first). -/
def value_le (bs : List Nat) : Nat :=
  bs.foldr (fun b acc => 2 * acc + b) 0

/-- Modelled from the spec (missing
`qualtran/bloqs/arithmetic/addition.py`, documented in the addition
notebook): the directly annotated classical action of `Add(QUInt(n))`:
the map sends registers `(a, b)` to `(a, a + b)`, dropping the most
significant bits that do not fit in the `n`-bit output register. -/
def add_call_classically (n a b : Nat) : Nat × Nat :=
  (a, (a + b) % 2 ^ n)

/-- One ripple-carry pass over a little-endian list of bit pairs with an
incoming carry: each step emits the sum bit and passes the new carry
on.  This is the classical action of the adder circuit's bit-level
core. -/
def ripple_carry_le (c : Nat) : List (Nat × Nat) → List Nat
  | [] => []
  | ab :: rest =>
    (ab.1 + ab.2 + c) % 2 :: ripple_carry_le ((ab.1 + ab.2 + c) / 2) rest

/-- Modelled from the spec (missing
`qualtran/bloqs/arithmetic/addition.py`, documented in the addition
notebook): the classical action of `Add(QUInt(n)).decompose_bloq()`.
The decomposition splits both registers into bits (big-endian), runs the
ripple-carry adder of the cited reference (Halving the cost of quantum
addition) from the least significant bit upward, and joins the result
bits back into the output register. -/
def add_decomposition_call_classically (n a b : Nat) : Nat × Nat :=
  (a,
    from_bits
      ((ripple_carry_le 0
        (((to_bits n a).reverse).zip ((to_bits n b).reverse))).reverse))

/-- The memoization invariant of one build: every bloq whose
decomposition has been invoked is recorded once, and its generalized key
is in the memo set (so it will never be expanded again). -/
def BuildInv {B : Type} (st : CGState B) : Prop :=
  st.dlog.Nodup ∧ ∀ b2, b2 ∈ st.dlog → some b2 ∈ st.memo

/-- The final state of the scenario build rooted at `D` (work-list
exhausted; four nodes expanded, two leaves). -/
def scenarioFinalState : CGState ABloq :=
  ⟨[],
   [some ABloq.C, some ABloq.A, some ABloq.B, some ABloq.D],
   [(some ABloq.D, some ABloq.B, 1), (some ABloq.D, some ABloq.A, 2),
    (some ABloq.B, some ABloq.A, 3), (some ABloq.B, some ABloq.C, 2)],
   [some ABloq.C, some ABloq.A],
   [ABloq.C, ABloq.A, ABloq.B, ABloq.D]⟩

theorem list_sum_filter_map_flatMap {α K : Type} (xs : List α)
    (f : α → List (Nat × K)) (p : Nat × K → Bool) :
    (((xs.flatMap f).filter p).map Prod.fst).sum
      = (xs.map fun x => (((f x).filter p).map Prod.fst).sum).sum := by
  induction xs with
  | nil => rfl
  | cons x xs ih =>
    simp only [List.flatMap_cons, List.filter_append, List.map_append,
      List.sum_append, List.map_cons, List.sum_cons, ih]

theorem list_sum_filter_map_scale {K : Type} [DecidableEq K]
    (ps : List (Nat × K)) (n : Nat) (l : K) :
    (((ps.map fun wl => (n * wl.1, wl.2)).filter
        fun wl => decide (wl.2 = l)).map Prod.fst).sum
      = n * ((ps.filter fun wl => decide (wl.2 = l)).map Prod.fst).sum := by
  induction ps with
  | nil => simp
  | cons p ps ih =>
    by_cases h : p.2 = l
    · simp [List.filter_cons, h, ih, Nat.mul_add]
    · simp [List.filter_cons, h, ih]

theorem sigma_eq_path_sum {B : Type} [DecidableEq B]
    (U : B → Option (List (B × Nat))) (g : B → Option B) :
    ∀ (fuel depth : Nat) (maxd : Option Nat) (b : B) (l : Option B),
      get_bloq_call_graph_sigma U g fuel depth maxd b l
        = (((leaf_path_weights U g fuel depth maxd b).filter
              fun wl => decide (wl.2 = l)).map Prod.fst).sum := by
  intro fuel
  induction fuel with
  | zero => intro depth maxd b l; rfl
  | succ f ih =>
    intro depth maxd b l
    simp only [get_bloq_call_graph_sigma, leaf_path_weights]
    cases hg : g b with
    | none =>
      by_cases h : l = (none : Option B)
      · subst h; simp [List.filter_cons]
      · simp [List.filter_cons, h, Ne.symm h]
    | some b2 =>
      cases hc : depth_cutoff maxd depth with
      | true =>
        by_cases h : l = some b2
        · subst h; simp [List.filter_cons]
        · simp [List.filter_cons, h, Ne.symm h]
      | false =>
        cases hU : U b2 with
        | none =>
          by_cases h : l = some b2
          · subst h; simp [hU, List.filter_cons]
          · simp [hU, List.filter_cons, h, Ne.symm h]
        | some cs =>
          cases he : cs.isEmpty with
          | true =>
            by_cases h : l = some b2
            · subst h; simp [hU, he, List.filter_cons]
            · simp [hU, he, List.filter_cons, h, Ne.symm h]
          | false =>
            simp only [hU, he, Bool.false_eq_true, if_false]
            rw [list_sum_filter_map_flatMap]
            congr 1
            apply List.map_congr_left
            intro cn _
            rw [list_sum_filter_map_scale, ih]

theorem sigma_cost_cut_free {B M : Type} [DecidableEq B] [AddCommMonoid M]
    (U : B → Option (List (B × Nat))) (g : B → Option B) (cost : B → M) :
    ∀ (fuel d : Nat) (b : B) (depth : Nat) (maxd : Option Nat) (l : Option B),
      decomposition_depth_le U g d b = true →
      (∀ m, maxd = some m → depth + d ≤ m) →
      get_bloq_call_graph_sigma U g fuel depth maxd b l
          = get_bloq_call_graph_sigma U g fuel depth none b l ∧
        get_cost_value U g cost fuel depth maxd b
          = get_cost_value U g cost fuel depth none b := by
  intro fuel
  induction fuel with
  | zero => intro d b depth maxd l _ _; exact ⟨rfl, rfl⟩
  | succ f ih =>
    intro d b depth maxd l hd hm
    simp only [get_bloq_call_graph_sigma, get_cost_value]
    cases hg : g b with
    | none => simp [hg]
    | some b2 =>
      cases hU : U b2 with
      | none =>
        cases hc : depth_cutoff maxd depth <;> simp [hg, hU, hc]
      | some cs =>
        cases he : cs.isEmpty with
        | true =>
          cases hc : depth_cutoff maxd depth <;> simp [hg, hU, hc, he]
        | false =>
          cases d with
          | zero =>
            exfalso
            have h1 : cs.isEmpty = true := by
              simpa [decomposition_depth_le, hg, hU] using hd
            rw [he] at h1
            exact Bool.noConfusion h1
          | succ e =>
            have hall : ∀ cn ∈ cs, decomposition_depth_le U g e cn.1 = true := by
              simpa [decomposition_depth_le, hg, hU, List.all_eq_true] using hd
            have hcut : depth_cutoff maxd depth = false := by
              cases maxd with
              | none => rfl
              | some m =>
                have h1 : depth + (e + 1) ≤ m := hm m rfl
                simp only [depth_cutoff, decide_eq_false_iff_not]
                omega
            have hm2 : ∀ cn, cn ∈ cs → ∀ m, maxd = some m →
                depth + 1 + e ≤ m := by
              intro cn _ m hmm
              have h1 : depth + (e + 1) ≤ m := hm m hmm
              omega
            constructor
            · simp only [hg, hU, he, hcut, Bool.false_eq_true, if_false]
              congr 1
              apply List.map_congr_left
              intro cn hcn
              rw [(ih e cn.1 (depth + 1) maxd l (hall cn hcn) (hm2 cn hcn)).1]
            · simp only [hg, hU, he, hcut, Bool.false_eq_true, if_false]
              congr 1
              apply List.map_congr_left
              intro cn hcn
              rw [(ih e cn.1 (depth + 1) maxd l (hall cn hcn) (hm2 cn hcn)).2]

theorem step_error_characterization {B E : Type} [DecidableEq B]
    (U : B → DecompRes B E) (g : B → Option B) (maxd : Option Nat)
    (st : CGState B) (e : E) :
    build_call_graph_step U g maxd st = .error e ↔
      ∃ b depth rest b2, st.queue = (b, depth) :: rest ∧ g b = some b2 ∧
        some b2 ∉ st.memo ∧ depth_cutoff maxd depth = false ∧
        U b2 = .fail e := by
  cases hq : st.queue with
  | nil =>
    simp [build_call_graph_step, hq]
  | cons hd rest =>
    obtain ⟨b, depth⟩ := hd
    constructor
    · intro h
      simp only [build_call_graph_step, hq] at h
      by_cases hmem : g b ∈ st.memo
      · rw [if_pos hmem] at h
        exact absurd h (by simp)
      · rw [if_neg hmem] at h
        cases hg : g b with
        | none => rw [hg] at h; exact absurd h (by simp)
        | some b2 =>
          rw [hg] at h
          rw [hg] at hmem
          cases hc : depth_cutoff maxd depth with
          | true => rw [hc] at h; exact absurd h (by simp)
          | false =>
            rw [hc] at h
            simp only [Bool.false_eq_true, if_false] at h
            cases hU : U b2 with
            | cs cs2 =>
              rw [hU] at h
              cases hcs : cs2.isEmpty <;> simp [hcs] at h
            | notImpl => rw [hU] at h; simp at h
            | fail e2 =>
              rw [hU] at h
              have he2 : e2 = e := by
                have := h
                simp only [Except.error.injEq] at this
                exact this
              exact ⟨b, depth, rest, b2, rfl, hg, hmem, hc, by rw [hU, he2]⟩
    · rintro ⟨b2x, depthx, restx, b2, hqx, hg, hmem, hc, hU⟩
      simp only [List.cons.injEq, Prod.mk.injEq] at hqx
      obtain ⟨⟨h1, h2⟩, h3⟩ := hqx
      subst h1; subst h2
      have hmem2 : ¬(g b ∈ st.memo) := by rw [hg]; exact hmem
      simp [build_call_graph_step, hq, hmem2, hg, hc, hU, hmem]

theorem run_error_iff {B E : Type} [DecidableEq B]
    (U : B → DecompRes B E) (g : B → Option B) (maxd : Option Nat) :
    ∀ (fuel : Nat) (st : CGState B) (e : E),
      build_call_graph U g maxd fuel st = .error e ↔
        ∃ n st2, n < fuel ∧ build_call_graph_iter U g maxd n st = some st2 ∧
          build_call_graph_step U g maxd st2 = .error e := by
  intro fuel
  induction fuel with
  | zero =>
    intro st e
    simp [build_call_graph]
  | succ f ih =>
    intro st e
    simp only [build_call_graph]
    cases h : build_call_graph_step U g maxd st with
    | error e2 =>
      constructor
      · intro he
        have he2 : e2 = e := by simpa using he
        exact ⟨0, st, Nat.succ_pos f, rfl, by rw [h, he2]⟩
      · rintro ⟨n, st2, hn, hiter, hstep⟩
        cases n with
        | zero =>
          have hst : st = st2 := by simpa [build_call_graph_iter] using hiter
          subst hst
          rw [h] at hstep
          simpa using hstep
        | succ m =>
          exfalso
          simp only [build_call_graph_iter, h] at hiter
          exact Option.noConfusion hiter
    | ok oos =>
      cases oos with
      | none =>
        constructor
        · intro he; exact absurd he (by simp)
        · rintro ⟨n, st2, hn, hiter, hstep⟩
          cases n with
          | zero =>
            have hst : st = st2 := by simpa [build_call_graph_iter] using hiter
            subst hst
            rw [h] at hstep
            exact absurd hstep (by simp)
          | succ m =>
            exfalso
            simp only [build_call_graph_iter, h] at hiter
            exact Option.noConfusion hiter
      | some st3 =>
        rw [ih st3 e]
        constructor
        · rintro ⟨n, st2, hn, hiter, hstep⟩
          refine ⟨n + 1, st2, by omega, ?_, hstep⟩
          simp [build_call_graph_iter, h, hiter]
        · rintro ⟨n, st2, hn, hiter, hstep⟩
          cases n with
          | zero =>
            have hst : st = st2 := by simpa [build_call_graph_iter] using hiter
            subst hst
            rw [h] at hstep
            exact absurd hstep (by simp)
          | succ m =>
            simp only [build_call_graph_iter, h] at hiter
            exact ⟨m, st2, by omega, hiter, hstep⟩

theorem step_preserves_inv {B E : Type} [DecidableEq B]
    (U : B → DecompRes B E) (g : B → Option B) (maxd : Option Nat)
    (st st2 : CGState B)
    (h : build_call_graph_step U g maxd st = .ok (some st2))
    (hinv : BuildInv st) : BuildInv st2 := by
  cases hq : st.queue with
  | nil => rw [build_call_graph_step, hq] at h; simp at h
  | cons hd rest =>
    obtain ⟨b, depth⟩ := hd
    simp only [build_call_graph_step, hq] at h
    by_cases hmem : g b ∈ st.memo
    · rw [if_pos hmem] at h
      have hst : { st with queue := rest } = st2 := by simpa using h
      subst hst
      exact ⟨hinv.1, hinv.2⟩
    · rw [if_neg hmem] at h
      cases hg : g b with
      | none =>
        rw [hg] at h
        simp only [Except.ok.injEq, Option.some.injEq] at h
        subst h
        exact ⟨hinv.1, fun b3 hb3 => List.mem_cons_of_mem _ (hinv.2 b3 hb3)⟩
      | some b2 =>
        rw [hg] at hmem
        rw [hg] at h
        have hnodup : (b2 :: st.dlog).Nodup :=
          List.nodup_cons.mpr
            ⟨fun hb2 => hmem (hinv.2 b2 hb2), hinv.1⟩
        have hmemo : ∀ b3, b3 ∈ b2 :: st.dlog →
            some b3 ∈ some b2 :: st.memo := by
          intro b3 hb3
          rcases List.mem_cons.mp hb3 with h3 | h3
          · subst h3; exact List.mem_cons_self _ _
          · exact List.mem_cons_of_mem _ (hinv.2 b3 h3)
        cases hc : depth_cutoff maxd depth with
        | true =>
          rw [hc] at h
          simp only [if_true] at h
          simp only [Except.ok.injEq, Option.some.injEq] at h
          subst h
          exact ⟨hinv.1, fun b3 hb3 =>
            List.mem_cons_of_mem _ (hinv.2 b3 hb3)⟩
        | false =>
          rw [hc] at h
          simp only [Bool.false_eq_true, if_false] at h
          cases hU : U b2 with
          | notImpl =>
            rw [hU] at h
            simp only [Except.ok.injEq, Option.some.injEq] at h
            subst h
            exact ⟨hnodup, hmemo⟩
          | fail e => rw [hU] at h; simp at h
          | cs cs2 =>
            rw [hU] at h
            cases hcs : cs2.isEmpty with
            | true =>
              simp only [hcs, if_true, Except.ok.injEq,
                Option.some.injEq] at h
              subst h
              exact ⟨hnodup, hmemo⟩
            | false =>
              simp only [hcs, Bool.false_eq_true, if_false,
                Except.ok.injEq, Option.some.injEq] at h
              subst h
              exact ⟨hnodup, hmemo⟩

theorem run_preserves_inv {B E : Type} [DecidableEq B]
    (U : B → DecompRes B E) (g : B → Option B) (maxd : Option Nat) :
    ∀ (fuel : Nat) (st st2 : CGState B),
      build_call_graph U g maxd fuel st = .ok st2 →
      BuildInv st → BuildInv st2 := by
  intro fuel
  induction fuel with
  | zero =>
    intro st st2 h hinv
    have hst : st = st2 := by simpa [build_call_graph] using h
    subst hst; exact hinv
  | succ f ih =>
    intro st st2 h hinv
    simp only [build_call_graph] at h
    cases hs : build_call_graph_step U g maxd st with
    | error e => rw [hs] at h; simp at h
    | ok oos =>
      cases oos with
      | none =>
        rw [hs] at h
        have hst : st = st2 := by simpa using h
        subst hst; exact hinv
      | some st3 =>
        rw [hs] at h
        exact ih st3 st2 h (step_preserves_inv U g maxd st st3 hs hinv)

theorem to_bits_le_succ (n x : Nat) :
    to_bits_le (n + 1) x = x % 2 :: to_bits_le n (x / 2) := by
  simp only [to_bits_le, List.range_succ_eq_map, List.map_cons, List.map_map,
    pow_zero, Nat.div_one]
  congr 1
  apply List.map_congr_left
  intro i _
  simp only [Function.comp_apply]
  rw [Nat.div_div_eq_div_mul, ← pow_succ']

theorem to_bits_succ (n x : Nat) :
    to_bits (n + 1) x = to_bits n (x / 2) ++ [x % 2] := by
  simp only [to_bits, List.range_succ, List.map_append, List.map_cons,
    List.map_nil]
  congr 1
  · apply List.map_congr_left
    intro i hi
    have hi2 : i < n := List.mem_range.mp hi
    have he : n + 1 - 1 - i = n - 1 - i + 1 := by omega
    rw [he, pow_succ', Nat.div_div_eq_div_mul]
  · have he : n + 1 - 1 - n = 0 := by omega
    rw [he]
    simp

theorem to_bits_eq_reverse_le : ∀ (n x : Nat),
    to_bits n x = (to_bits_le n x).reverse := by
  intro n
  induction n with
  | zero => intro x; rfl
  | succ m ih =>
    intro x
    rw [to_bits_succ, to_bits_le_succ, List.reverse_cons, ih]

theorem foldl_to_bits : ∀ (n x a : Nat), x < 2 ^ n →
    (to_bits n x).foldl (fun acc b => 2 * acc + b) a = a * 2 ^ n + x := by
  intro n
  induction n with
  | zero =>
    intro x a hx
    have hx0 : x = 0 := by simpa using hx
    subst hx0
    simp [to_bits]
  | succ m ih =>
    intro x a hx
    rw [to_bits_succ, List.foldl_append]
    have hx2 : x / 2 < 2 ^ m := by
      rw [Nat.div_lt_iff_lt_mul (by norm_num : (0 : Nat) < 2)]
      calc x < 2 ^ (m + 1) := hx
        _ = 2 ^ m * 2 := pow_succ 2 m
    rw [ih (x / 2) a hx2]
    simp only [List.foldl_cons, List.foldl_nil]
    have hmod : 2 * (x / 2) + x % 2 = x := by omega
    calc 2 * (a * 2 ^ m + x / 2) + x % 2
        = a * (2 ^ m * 2) + (2 * (x / 2) + x % 2) := by ring
      _ = a * 2 ^ (m + 1) + x := by rw [hmod, pow_succ]

theorem two_mul_add_mod (M r k : Nat) (hr : r < 2) :
    (2 * M + r) % (2 * k) = 2 * (M % k) + r := by
  rcases Nat.eq_zero_or_pos k with hk | hk
  · subst hk
    simp [Nat.mod_zero]
  · have hd := Nat.div_add_mod M k
    have hlt : 2 * (M % k) + r < 2 * k := by
      have := Nat.mod_lt M hk
      omega
    have heq : 2 * M + r = 2 * (M % k) + r + 2 * k * (M / k) := by
      have h2 : 2 * k * (M / k) = 2 * (k * (M / k)) := by ring
      omega
    rw [heq, Nat.add_mul_mod_self_left, Nat.mod_eq_of_lt hlt]

theorem value_ripple : ∀ (n a b c : Nat), c ≤ 1 →
    value_le (ripple_carry_le c ((to_bits_le n a).zip (to_bits_le n b)))
      = (a + b + c) % 2 ^ n := by
  intro n
  induction n with
  | zero =>
    intro a b c _
    simp [to_bits_le, value_le, ripple_carry_le, Nat.mod_one]
  | succ m ih =>
    intro a b c hc
    rw [to_bits_le_succ, to_bits_le_succ, List.zip_cons_cons]
    simp only [ripple_carry_le, value_le, List.foldr_cons]
    have hc2 : (a % 2 + b % 2 + c) / 2 ≤ 1 := by omega
    have hih := ih (a / 2) (b / 2) ((a % 2 + b % 2 + c) / 2) hc2
    simp only [value_le] at hih
    rw [hih]
    have key := two_mul_add_mod (a / 2 + b / 2 + (a % 2 + b % 2 + c) / 2)
      ((a % 2 + b % 2 + c) % 2) (2 ^ m) (Nat.mod_lt _ (by norm_num))
    have hsplit : a + b + c
        = 2 * (a / 2 + b / 2 + (a % 2 + b % 2 + c) / 2)
          + (a % 2 + b % 2 + c) % 2 := by omega
    rw [pow_succ', hsplit, key]

theorem from_bits_reverse (l : List Nat) :
    from_bits l.reverse = value_le l := by
  simp only [from_bits, value_le, List.foldl_reverse]

/-- C1: for every bloq whose call graph assigns it direct callees
`[(c1,n1),...,(ck,nk)]`, the aggregated total satisfies
`sigma[bloq] = sum ni * cost(ci)` applied recursively, both for the
leaf-count sigma of `get_bloq_call_graph` and for the typed cost values
of `get_cost_value`, and sigma equals the weighted reachability fold:
the sum over all root-to-leaf paths of the product of the edge weights
along each path. -/
theorem additivity_and_path_fold {B M : Type} [DecidableEq B]
    [AddCommMonoid M]
    (U : B → Option (List (B × Nat))) (g : B → Option B) (cost : B → M)
    (b b2 : B) (cs : List (B × Nat)) (fuel depth : Nat)
    (maxd : Option Nat) (l : Option B)
    (hg : g b = some b2) (hU : U b2 = some cs) (hne : cs ≠ [])
    (hcut : depth_cutoff maxd depth = false) :
    get_bloq_call_graph_sigma U g (fuel + 1) depth maxd b l
        = (cs.map fun cn =>
            cn.2 * get_bloq_call_graph_sigma U g fuel (depth + 1) maxd
              cn.1 l).sum ∧
      get_cost_value U g cost (fuel + 1) depth maxd b
        = (cs.map fun cn =>
            cn.2 • get_cost_value U g cost fuel (depth + 1) maxd
              cn.1).sum ∧
      get_bloq_call_graph_sigma U g (fuel + 1) depth maxd b l
        = (((leaf_path_weights U g (fuel + 1) depth maxd b).filter
              fun wl => decide (wl.2 = l)).map Prod.fst).sum := by
  have hemp : cs.isEmpty = false := by
    cases cs with
    | nil => exact absurd rfl hne
    | cons c cs2 => rfl
  refine ⟨?_, ?_, sigma_eq_path_sum U g (fuel + 1) depth maxd b l⟩
  · simp [get_bloq_call_graph_sigma, hg, hcut, hU, hemp]
  · simp [get_cost_value, hg, hcut, hU, hemp]

theorem additivity_and_path_fold_witness :
    (gid ABloq.D = some ABloq.D) ∧
    (scenarioCallees ABloq.D = some [(ABloq.B, 1), (ABloq.A, 2)]) ∧
    ([(ABloq.B, 1), (ABloq.A, 2)] ≠ ([] : List (ABloq × Nat))) ∧
    (depth_cutoff none 0 = false) ∧
    (get_bloq_call_graph_sigma scenarioCallees gid 4 0 none ABloq.D
          (some ABloq.A)
        = ([(ABloq.B, 1), (ABloq.A, 2)].map fun cn =>
            cn.2 * get_bloq_call_graph_sigma scenarioCallees gid 3 1 none
              cn.1 (some ABloq.A)).sum ∧
      get_cost_value scenarioCallees gid scenarioTCost 4 0 none ABloq.D
        = ([(ABloq.B, 1), (ABloq.A, 2)].map fun cn =>
            cn.2 • get_cost_value scenarioCallees gid scenarioTCost 3 1
              none cn.1).sum ∧
      get_bloq_call_graph_sigma scenarioCallees gid 4 0 none ABloq.D
          (some ABloq.A)
        = (((leaf_path_weights scenarioCallees gid 4 0 none
              ABloq.D).filter
              fun wl => decide (wl.2 = some ABloq.A)).map
            Prod.fst).sum) :=
  ⟨rfl, rfl, by decide, rfl,
    additivity_and_path_fold scenarioCallees gid scenarioTCost ABloq.D
      ABloq.D [(ABloq.B, 1), (ABloq.A, 2)] 3 0 none (some ABloq.A)
      rfl rfl (by decide) rfl⟩

/-- C2: in the concrete scenario family (`A` a leaf of T-cost 1, `C` a
leaf of T-cost 4, `B = 3 A + 2 C`, `D = B + 2 A`), the total T-cost of
`D` is 13, and the call graph built from `D` has exactly the edges
D to B with weight 1, D to A with weight 2, B to A with weight 3 and
B to C with weight 2. -/
theorem concrete_scenario_total_and_edges :
    get_cost_value scenarioCallees gid scenarioTCost 4 0 none ABloq.D
        = 13 ∧
    (build_call_graph scenarioDriver gid none 10
        (initState [ABloq.D])).map (fun st => st.edges)
      = .ok [(some ABloq.D, some ABloq.B, 1),
             (some ABloq.D, some ABloq.A, 2),
             (some ABloq.B, some ABloq.A, 3),
             (some ABloq.B, some ABloq.C, 2)] :=
  ⟨by decide, by rfl⟩

/-- C3: a bloq with no decomposition and no direct cost override is a
terminal leaf for every `max_depth` (including none): it appears in
sigma with its unit per-call self-count, independently of `max_depth`
and of the depth at which it is reached, and the builder loop marks it
as a leaf node. -/
theorem leaf_stability {B E : Type} [DecidableEq B]
    (U : B → Option (List (B × Nat))) (U2 : B → DecompRes B E)
    (g : B → Option B) (b b2 : B)
    (hg : g b = some b2) (hU : U b2 = none)
    (hU2 : U2 b2 = DecompRes.notImpl) :
    (∀ fuel depth maxd l,
      get_bloq_call_graph_sigma U g (fuel + 1) depth maxd b l
        = if l = some b2 then 1 else 0) ∧
    (∀ maxd (st : CGState B) depth rest,
      st.queue = (b, depth) :: rest → some b2 ∉ st.memo →
      ∃ st2, build_call_graph_step U2 g maxd st = .ok (some st2) ∧
        some b2 ∈ st2.leaves) := by
  constructor
  · intro fuel depth maxd l
    cases hc : depth_cutoff maxd depth <;>
      simp [get_bloq_call_graph_sigma, hg, hc, hU]
  · intro maxd st depth rest hq hmem
    have hmem2 : ¬(g b ∈ st.memo) := by rw [hg]; exact hmem
    cases hc : depth_cutoff maxd depth with
    | true =>
      refine ⟨⟨rest, some b2 :: st.memo, st.edges,
        some b2 :: st.leaves, st.dlog⟩, ?_, List.mem_cons_self _ _⟩
      simp [build_call_graph_step, hq, hmem2, hg, hc, hmem]
    | false =>
      refine ⟨⟨rest, some b2 :: st.memo, st.edges,
        some b2 :: st.leaves, b2 :: st.dlog⟩, ?_, List.mem_cons_self _ _⟩
      simp [build_call_graph_step, hq, hmem2, hg, hc, hU2, hmem]

theorem leaf_stability_witness :
    (gid ABloq.A = some ABloq.A) ∧ (scenarioCallees ABloq.A = none) ∧
    (scenarioDriver ABloq.A = DecompRes.notImpl) ∧
    ((∀ fuel depth maxd l,
      get_bloq_call_graph_sigma scenarioCallees gid (fuel + 1) depth maxd
          ABloq.A l
        = if l = some ABloq.A then 1 else 0) ∧
    (∀ maxd (st : CGState ABloq) depth rest,
      st.queue = (ABloq.A, depth) :: rest → some ABloq.A ∉ st.memo →
      ∃ st2, build_call_graph_step scenarioDriver gid maxd st
          = .ok (some st2) ∧
        some ABloq.A ∈ st2.leaves)) :=
  ⟨rfl, rfl, rfl,
    leaf_stability scenarioCallees scenarioDriver gid ABloq.A ABloq.A
      rfl rfl rfl⟩

/-- C4 counterexample: the claim quantifies over every generalizer
usable with the call-graph builder, but idempotence is a property of the
individual generalizer, not of the interface: `bumpOther` has exactly
the generalizer type the builder accepts, yet applying it twice to the
bloq `other 0` differs from applying it once. -/
theorem generalizer_idempotence_fails_in_general :
    generalize_twice bumpOther (GBloq.other 0)
      ≠ bumpOther (GBloq.other 0) := by
  decide

/-- C4 as amended: the built-in generalizers `ignore_split_join` and
`generalize_rotation_angle` are idempotent on every bloq: applying
either of them twice (a dropped bloq stays dropped, a kept bloq is
generalized again) gives the same result as applying it once. -/
theorem builtin_generalizers_idempotent (b : GBloq) :
    generalize_twice ignore_split_join b = ignore_split_join b ∧
    generalize_twice generalize_rotation_angle b
      = generalize_rotation_angle b := by
  cases b <;>
    simp [generalize_twice, ignore_split_join, generalize_rotation_angle]

/-- C5: for a bloq whose entire decomposition tree has depth at most
`d`, the aggregate leaf counts and typed costs computed with
`max_depth = d` and with `max_depth = d + 5` are identical. -/
theorem depth_cutoff_monotone {B M : Type} [DecidableEq B]
    [AddCommMonoid M]
    (U : B → Option (List (B × Nat))) (g : B → Option B) (cost : B → M)
    (d : Nat) (b : B) (fuel : Nat) (l : Option B)
    (hd : decomposition_depth_le U g d b = true) :
    get_bloq_call_graph_sigma U g fuel 0 (some d) b l
        = get_bloq_call_graph_sigma U g fuel 0 (some (d + 5)) b l ∧
      get_cost_value U g cost fuel 0 (some d) b
        = get_cost_value U g cost fuel 0 (some (d + 5)) b := by
  have h1 := sigma_cost_cut_free U g cost fuel d b 0 (some d) l hd
    (by intro m hm; injection hm with hm2; omega)
  have h2 := sigma_cost_cut_free U g cost fuel d b 0 (some (d + 5)) l hd
    (by intro m hm; injection hm with hm2; omega)
  exact ⟨h1.1.trans h2.1.symm, h1.2.trans h2.2.symm⟩

theorem depth_cutoff_monotone_witness :
    (decomposition_depth_le scenarioCallees gid 2 ABloq.D = true) ∧
    (get_bloq_call_graph_sigma scenarioCallees gid 4 0 (some 2) ABloq.D
          (some ABloq.A)
        = get_bloq_call_graph_sigma scenarioCallees gid 4 0 (some (2 + 5))
            ABloq.D (some ABloq.A) ∧
      get_cost_value scenarioCallees gid scenarioTCost 4 0 (some 2)
          ABloq.D
        = get_cost_value scenarioCallees gid scenarioTCost 4 0
            (some (2 + 5)) ABloq.D) :=
  ⟨by decide,
    depth_cutoff_monotone scenarioCallees gid scenarioTCost 2 ABloq.D 4
      (some ABloq.A) (by decide)⟩

/-- C6: the call-graph build returns an error exactly when some reached,
not yet memoized, not depth-cut bloq's decomposition fails with an error
other than `DecomposeNotImplemented`, and the error reaches the caller
unchanged; a `DecomposeNotImplemented` (or a zero-callee result, or a
dropped or depth-cut node) never surfaces as an error. -/
theorem decompose_error_propagation {B E : Type} [DecidableEq B]
    (U : B → DecompRes B E) (g : B → Option B) (maxd : Option Nat) :
    (∀ (fuel : Nat) (st : CGState B) (e : E),
      build_call_graph U g maxd fuel st = .error e ↔
        ∃ n st2, n < fuel ∧
          build_call_graph_iter U g maxd n st = some st2 ∧
          build_call_graph_step U g maxd st2 = .error e) ∧
    (∀ (st : CGState B) (e : E),
      build_call_graph_step U g maxd st = .error e ↔
        ∃ b depth rest b2, st.queue = (b, depth) :: rest ∧
          g b = some b2 ∧ some b2 ∉ st.memo ∧
          depth_cutoff maxd depth = false ∧ U b2 = DecompRes.fail e) :=
  ⟨fun fuel st e => run_error_iff U g maxd fuel st e,
   fun st e => step_error_characterization U g maxd st e⟩

/-- C7: within a single call-graph build, every bloq whose decomposition
was invoked at all was invoked exactly once, and no bloq's decomposition
is ever invoked twice: once a generalized bloq is in the memo set it is
never expanded again, however many parents reach it. -/
theorem decomposition_invoked_at_most_once {B E : Type} [DecidableEq B]
    (U : B → DecompRes B E) (g : B → Option B) (maxd : Option Nat)
    (roots : List B) (fuel : Nat) (stf : CGState B)
    (h : build_call_graph U g maxd fuel (initState roots) = .ok stf) :
    (∀ b2, b2 ∈ stf.dlog → stf.dlog.count b2 = 1) ∧
    ∀ b2, stf.dlog.count b2 ≤ 1 := by
  have hinv : BuildInv stf :=
    run_preserves_inv U g maxd fuel (initState roots) stf h
      ⟨List.nodup_nil, by intro b2 hb2; simp [initState] at hb2⟩
  exact ⟨fun b2 hb2 => List.count_eq_one_of_mem hinv.1 hb2,
    fun b2 => List.nodup_iff_count_le_one.mp hinv.1 b2⟩

theorem decomposition_invoked_at_most_once_witness :
    (build_call_graph scenarioDriver gid none 10 (initState [ABloq.D])
        = .ok scenarioFinalState) ∧
    ((∀ b2, b2 ∈ scenarioFinalState.dlog →
        scenarioFinalState.dlog.count b2 = 1) ∧
      ∀ b2, scenarioFinalState.dlog.count b2 ≤ 1) :=
  ⟨by rfl,
    decomposition_invoked_at_most_once scenarioDriver gid none [ABloq.D]
      10 scenarioFinalState (by rfl)⟩

/-- C8: building the scenario call graph for `D` with the generalizer
that drops every instance of `A` yields a sigma in which `A` is no
longer a distinguishable node (its per-call counts are merged into the
generic placeholder), while the total T-cost of `D` is unchanged at 13,
the same total as with the identity generalizer. -/
theorem drop_generalizer_identity_vs_cost :
    get_bloq_call_graph_sigma scenarioCallees dropA 4 0 none ABloq.D
        (some ABloq.A) = 0 ∧
    get_bloq_call_graph_sigma scenarioCallees dropA 4 0 none ABloq.D
        none = 5 ∧
    get_cost_value scenarioCallees dropA scenarioTCost 4 0 none ABloq.D
        = 13 ∧
    get_cost_value scenarioCallees gid scenarioTCost 4 0 none ABloq.D
        = 13 := by
  refine ⟨by decide, by decide, by decide, by decide⟩

/-- C9: `QUInt(n).to_bits x` returns the `n` bits of `x` in big-endian
order with the most significant bit at index 0: the list has length `n`,
all entries are bits, and folding it back most-significant-first
recovers `x`; in particular `QUInt(8).to_bits 254` is
`[1,1,1,1,1,1,1,0]` and `QUInt(8).to_bits 0x30` is
`[0,0,1,1,0,0,0,0]`. -/
theorem to_bits_big_endian (n x : Nat) (hx : x < 2 ^ n) :
    ((to_bits n x).length = n ∧ from_bits (to_bits n x) = x ∧
      ∀ bit ∈ to_bits n x, bit < 2) ∧
    to_bits 8 254 = [1, 1, 1, 1, 1, 1, 1, 0] ∧
    to_bits 8 48 = [0, 0, 1, 1, 0, 0, 0, 0] := by
  refine ⟨⟨?_, ?_, ?_⟩, by decide, by decide⟩
  · simp [to_bits]
  · have h := foldl_to_bits n x 0 hx
    simpa [from_bits] using h
  · intro bit hbit
    simp only [to_bits, List.mem_map] at hbit
    obtain ⟨i, _, hi⟩ := hbit
    omega

theorem to_bits_big_endian_witness :
    (254 < 2 ^ 8) ∧
    (((to_bits 8 254).length = 8 ∧ from_bits (to_bits 8 254) = 254 ∧
        ∀ bit ∈ to_bits 8 254, bit < 2) ∧
      to_bits 8 254 = [1, 1, 1, 1, 1, 1, 1, 0] ∧
      to_bits 8 48 = [0, 0, 1, 1, 0, 0, 0, 0]) :=
  ⟨by decide, to_bits_big_endian 8 254 (by decide)⟩

/-- C10: for every pair of values in the classical domain of `QUInt(n)`,
the classical action of `Add(QUInt(n))`'s decomposition (split into
bits, ripple-carry add, join) equals the bloq's directly annotated
classical action `(a, b) to (a, (a + b) mod 2^n)`. -/
theorem add_decomposition_consistent (n a b : Nat)
    (_ha : a < 2 ^ n) (_hb : b < 2 ^ n) :
    add_decomposition_call_classically n a b
      = add_call_classically n a b := by
  unfold add_decomposition_call_classically add_call_classically
  simp only [Prod.mk.injEq, true_and]
  rw [to_bits_eq_reverse_le, to_bits_eq_reverse_le, List.reverse_reverse,
    List.reverse_reverse, from_bits_reverse,
    value_ripple n a b 0 (by omega), Nat.add_zero]

theorem add_decomposition_consistent_witness :
    (1 < 2 ^ 2) ∧ (3 < 2 ^ 2) ∧
    add_decomposition_call_classically 2 1 3
      = add_call_classically 2 1 3 :=
  ⟨by decide, by decide,
    add_decomposition_consistent 2 1 3 (by decide) (by decide)⟩

end Qualtran
